import Mathlib

/-!
Verification of the fastlyctl reconciliation engine (alienth/fastlyctl).

This file gives a shallow embedding, in Lean, of the parts of the Go source
that the checked claims are about:

* the generic per-category reconciler loop that appears, once per object
  category, in `cmd/fastlyctl/sync.go` (`syncCacheSettings`, `syncDomains`,
  `syncHeaders`, `syncConditions`, `syncHealthChecks`, ...);
* the draft-version manager `prepareNewVersion` (`cmd/fastlyctl/sync.go`);
* the equivalence checker `VersionsEqual` (`util/util.go`);
* the `changesMade` plumbing of `syncService` and the activation phase of
  `syncConfig` (`cmd/fastlyctl/sync.go` and the legacy root `sync.go`);
* the backend address-normalization step of `syncBackends`
  (`cmd/fastlyctl/sync.go`).

Remote API calls are modelled by explicit oracles (the value a call would
return) and the functions produce, besides their result, the list of calls
they issued, so that claims about which calls happen can be stated directly.
-/

set_option linter.unusedVariables false

namespace Fastlyctl

/-! ## Object categories (mirrors of the go-fastly structs under
`vendor/github.com/alienth/go-fastly`) -/

/-- Mirror of `fastly.CacheSetting` (`cache_setting.go`).  `uint` fields become
`Nat`, the string-typed `CacheSettingAction` becomes `String`. -/
structure CacheSetting where
  ServiceID : String
  Version : Nat
  Name : String
  Action : String
  CacheCondition : String
  StaleTTL : Nat
  TTL : Nat
deriving DecidableEq

/-- Go's zero value `fastly.CacheSetting{}`. -/
def CacheSetting.zero : CacheSetting := ⟨"", 0, "", "", "", 0, 0⟩

/-- The field zeroing done by `syncCacheSettings` before comparison
(`cacheSetting.ServiceID = ""` and `cacheSetting.Version = 0`). -/
def CacheSetting.zeroReadOnly (c : CacheSetting) : CacheSetting :=
  { c with ServiceID := "", Version := 0 }

/-- Mirror of `fastly.Domain` (go-fastly `domain.go`). -/
structure Domain where
  ServiceID : String
  Version : Nat
  Name : String
  Comment : String
deriving DecidableEq

def Domain.zero : Domain := ⟨"", 0, "", ""⟩

/-- The field zeroing done by `syncDomains` before comparison. -/
def Domain.zeroReadOnly (d : Domain) : Domain :=
  { d with ServiceID := "", Version := 0 }

/-- Mirror of `fastly.Header` (`header.go`).  `Compatibool` becomes `Bool`,
`HeaderAction` and `HeaderType` become `String`. -/
structure Header where
  ServiceID : String
  Version : Nat
  Name : String
  Action : String
  CacheCondition : String
  IgnoreIfSet : Bool
  Priority : Nat
  Regex : String
  RequestCondition : String
  ResponseCondition : String
  Source : String
  Destination : String
  Substitution : String
  «Type» : String
deriving DecidableEq

def Header.zero : Header :=
  ⟨"", 0, "", "", "", false, 0, "", "", "", "", "", "", ""⟩

/-- The field zeroing done by `syncHeaders` before comparison. -/
def Header.zeroReadOnly (h : Header) : Header :=
  { h with ServiceID := "", Version := 0 }

/-- Mirror of `fastly.Condition` (`condition.go`). -/
structure Condition where
  ServiceID : String
  Version : Nat
  Name : String
  Statement : String
  «Type» : String
  Comment : String
  Priority : Nat
deriving DecidableEq

def Condition.zero : Condition := ⟨"", 0, "", "", "", "", 0⟩

/-- The field zeroing done by `syncConditions` before comparison. -/
def Condition.zeroReadOnly (c : Condition) : Condition :=
  { c with ServiceID := "", Version := 0 }

/-- Mirror of `fastly.HealthCheck` (go-fastly `health_check.go`). -/
structure HealthCheck where
  ServiceID : String
  Version : Nat
  Name : String
  CheckInterval : Nat
  Initial : Nat
  Threshold : Nat
  Timeout : Nat
  Window : Nat
  Comment : String
  ExpectedResponse : Nat
  Host : String
  HTTPVersion : String
  Method : String
  Path : String
deriving DecidableEq

def HealthCheck.zero : HealthCheck :=
  ⟨"", 0, "", 0, 0, 0, 0, 0, "", 0, "", "", "", ""⟩

/-- The field zeroing done by `syncHealthChecks` before comparison. -/
def HealthCheck.zeroReadOnly (h : HealthCheck) : HealthCheck :=
  { h with ServiceID := "", Version := 0 }

/-! ## The generic category-reconciler loop

Every `syncXs(client, s, newXs)` function in `cmd/fastlyctl/sync.go` runs the
same loop, written once per category in Go.  It is embedded here once,
parameterized by the object type `α`, the name accessor `nm`, the read-only
field zeroing `zf`, and the Go zero value `z`:

  for each existing remote object e (in list order):
      e' := zf e                      -- zero read-only fields
      scan the desired worklist in order; at the first entry d with
        e' == d                       -> no API call, remove d from worklist
        e'.Name == d.Name             -> one Update call with d, remove d
      if no entry matched             -> one Delete call
  for each d remaining in the worklist (in order):
      if d == z then skip else one Create call
-/

/-- One remote API mutation issued by a category reconciler. -/
inductive ReconAction (α : Type) where
  | update (name : String) (obj : α)
  | delete (name : String)
  | create (obj : α)
deriving DecidableEq

/-- The inner `for i, newX := range newXs` loop: scan the worklist for the
first entry that matches `e` exactly or by name.  Returns `none` when nothing
matched (the existing object will be deleted), otherwise the optional mutation
for the match together with the worklist with the matched entry removed
(Go: `newXs = append(newXs[:i], newXs[i+1:]...)`). -/
def scanWorklist {α : Type} [DecidableEq α] (nm : α → String) (e : α) :
    List α → Option (Option (ReconAction α) × List α)
  | [] => none
  | d :: rest =>
    if e = d then some (none, rest)
    else if nm e = nm d then some (some (.update (nm e) d), rest)
    else
      match scanWorklist nm e rest with
      | none => none
      | some (a, rest') => some (a, d :: rest')

/-- Content of a remote object after its match was processed: unchanged on an
exact match, replaced by the desired entry's fields on an Update. -/
def survivorOf {α : Type} (e : α) : Option (ReconAction α) → α
  | some (.update _ d) => d
  | _ => e

/-- The outer loop over existing remote objects.  Returns the issued
mutations, the final contents of the remote objects that were not deleted
(in remote order), and the remaining desired worklist. -/
def processExisting {α : Type} [DecidableEq α] (nm : α → String) (zf : α → α) :
    List α → List α → List (ReconAction α) × List α × List α
  | [], work => ([], [], work)
  | e :: es, work =>
    let e' := zf e
    match scanWorklist nm e' work with
    | none =>
      let r := processExisting nm zf es work
      (.delete (nm e') :: r.1, r.2.1, r.2.2)
    | some (a, work') =>
      let r := processExisting nm zf es work'
      (a.toList ++ r.1, survivorOf e' a :: r.2.1, r.2.2)

/-- The trailing `for _, x := range newXs` Create loop, skipping entries equal
to the Go zero value. -/
def createMissing {α : Type} [DecidableEq α] (z : α) (work : List α) :
    List (ReconAction α) :=
  (work.filter (fun d => d ≠ z)).map .create

/-- A full category reconciliation run: issued mutations, and the resulting
remote category contents (kept/updated objects in remote order, then created
objects in worklist order). -/
def reconcileCategory {α : Type} [DecidableEq α] (nm : α → String) (zf : α → α)
    (z : α) (existing desired : List α) : List (ReconAction α) × List α :=
  let r := processExisting nm zf existing desired
  (r.1 ++ createMissing z r.2.2, r.2.1 ++ r.2.2.filter (fun d => d ≠ z))

/-! ### The `_servicename_` token replacement

`syncDomains` rewrites every desired domain name with
`strings.NewReplacer("_servicename_", s.Name)` before reconciling. -/

/-- Whether the pattern occurs at the start of the text. -/
def patHere : List Char → List Char → Bool
  | [], _ => true
  | _ :: _, [] => false
  | p :: ps, c :: cs => p = c && patHere ps cs

/-- Left-to-right single-pattern scan of Go's `strings.Replacer`: while
skipping (`skip > 0`) consume characters of an already-matched occurrence;
otherwise emit the replacement at each match (then skip the rest of the
occurrence) and copy the character through at a non-match. -/
def replaceAux (pat rep : List Char) : List Char → Nat → List Char
  | [], _ => []
  | _ :: rest, Nat.succ k => replaceAux pat rep rest k
  | c :: rest, 0 =>
    if pat ≠ [] ∧ patHere pat (c :: rest) then
      rep ++ replaceAux pat rep rest (pat.length - 1)
    else
      c :: replaceAux pat rep rest 0

/-- `strings.NewReplacer(pat, rep).Replace(s)` for a single non-empty
pattern: non-overlapping left-to-right replacement of every occurrence. -/
def goReplace (pat rep s : String) : String :=
  ⟨replaceAux pat.data rep.data s.data 0⟩

/-- The name rewriting `syncDomains` applies to each desired domain
(`newDomains[i].Name = r.Replace(newDomains[i].Name)`). -/
def Domain.subst (svcName : String) (d : Domain) : Domain :=
  { d with Name := goReplace "_servicename_" svcName d.Name }

/-! ### Per-category instantiations of the loop -/

/-- `syncCacheSettings` (`cmd/fastlyctl/sync.go` lines 592-643): the generic
loop at type `fastly.CacheSetting`, no token substitution. -/
def syncCacheSettings (existing desired : List CacheSetting) :
    List (ReconAction CacheSetting) × List CacheSetting :=
  reconcileCategory CacheSetting.Name CacheSetting.zeroReadOnly
    CacheSetting.zero existing desired

/-- `syncHeaders` (`cmd/fastlyctl/sync.go` lines 539-590). -/
def syncHeaders (existing desired : List Header) :
    List (ReconAction Header) × List Header :=
  reconcileCategory Header.Name Header.zeroReadOnly Header.zero
    existing desired

/-- `syncConditions` (`cmd/fastlyctl/sync.go` lines 751-802). -/
def syncConditions (existing desired : List Condition) :
    List (ReconAction Condition) × List Condition :=
  reconcileCategory Condition.Name Condition.zeroReadOnly Condition.zero
    existing desired

/-- `syncDomains` (`cmd/fastlyctl/sync.go` lines 351-407): the
`_servicename_` token in each desired name is replaced by the service's name,
then the generic loop runs. -/
def syncDomains (svcName : String) (existing desired : List Domain) :
    List (ReconAction Domain) × List Domain :=
  reconcileCategory Domain.Name Domain.zeroReadOnly Domain.zero existing
    (desired.map (Domain.subst svcName))

/-! ## Error-aware model of `syncHealthChecks`

For the health-check category both generations of the reconciler are
embedded with explicit call results, because the checked property is about
which API errors abort the run. -/

/-- Remote API errors (Go `error` values), as strings. -/
abbrev ApiErr := String

/-- Oracle for the health-check API calls of one run. -/
structure HealthCheckApi where
  listRes : Except ApiErr (List HealthCheck)
  updateRes : String → HealthCheck → Option ApiErr
  deleteRes : String → Option ApiErr
  createRes : HealthCheck → Option ApiErr

/-- The outcome the oracle assigns to a given mutation call. -/
def HealthCheckApi.callRes (api : HealthCheckApi) :
    ReconAction HealthCheck → Option ApiErr
  | .update n h => api.updateRes n h
  | .delete n => api.deleteRes n
  | .create h => api.createRes h

/-- The inner worklist scan, returning the matched desired entry, whether the
match was exact, and the worklist with that entry removed. -/
def findMatch {α : Type} [DecidableEq α] (nm : α → String) (e : α) :
    List α → Option (α × Bool × List α)
  | [] => none
  | d :: rest =>
    if e = d then some (d, true, rest)
    else if nm e = nm d then some (d, false, rest)
    else
      match findMatch nm e rest with
      | none => none
      | some (d', x, rest') => some (d', x, d :: rest')

/-- The outer loop of the current `syncHealthChecks` over existing remote
health checks, issuing Update/Delete calls and aborting at the first call the
oracle fails.  Returns the calls issued in order, the remaining worklist, and
the error that aborted the loop, if any. -/
def syncHealthChecksExisting (api : HealthCheckApi) :
    List HealthCheck → List HealthCheck →
      List (ReconAction HealthCheck) × List HealthCheck × Option ApiErr
  | [], work => ([], work, none)
  | e :: es, work =>
    let e' := e.zeroReadOnly
    match findMatch HealthCheck.Name e' work with
    | none =>
      match api.deleteRes e'.Name with
      | some err => ([.delete e'.Name], work, some err)
      | none =>
        let r := syncHealthChecksExisting api es work
        (.delete e'.Name :: r.1, r.2.1, r.2.2)
    | some (d, isExact, work') =>
      match isExact with
      | true => syncHealthChecksExisting api es work'
      | false =>
        match api.updateRes e'.Name d with
        | some err => ([.update e'.Name d], work', some err)
        | none =>
          let r := syncHealthChecksExisting api es work'
          (.update e'.Name d :: r.1, r.2.1, r.2.2)

/-- The trailing Create loop of the current `syncHealthChecks`, skipping
zero-value entries and aborting at the first failed Create. -/
def syncHealthChecksCreate (api : HealthCheckApi) :
    List HealthCheck → List (ReconAction HealthCheck) × Option ApiErr
  | [] => ([], none)
  | d :: ds =>
    if d = HealthCheck.zero then syncHealthChecksCreate api ds
    else
      match api.createRes d with
      | some err => ([.create d], some err)
      | none =>
        let r := syncHealthChecksCreate api ds
        (.create d :: r.1, r.2)

/-- `syncHealthChecks` (`cmd/fastlyctl/sync.go` lines 214-271): empty
`HTTPVersion` fields are first defaulted to `"1.1"`; a List error aborts the
run before any mutation; afterwards the reconciler loop runs, aborting at the
first failed mutation call, whose error is returned unchanged. -/
def syncHealthChecks (api : HealthCheckApi) (desired : List HealthCheck) :
    List (ReconAction HealthCheck) × Option ApiErr :=
  let desired := desired.map (fun h =>
    if h.HTTPVersion = "" then { h with HTTPVersion := "1.1" } else h)
  match api.listRes with
  | .error e => ([], some e)
  | .ok existing =>
    let r := syncHealthChecksExisting api existing desired
    match r.2.2 with
    | some err => (r.1, some err)
    | none =>
      let c := syncHealthChecksCreate api r.2.1
      (r.1 ++ c.1, c.2)

/-- The delete-everything loop of the legacy `syncHealthChecks`
(root `sync.go`), aborting at the first failed Delete. -/
def syncHealthChecksLegacyDeletes (api : HealthCheckApi) :
    List HealthCheck → List (ReconAction HealthCheck) × Option ApiErr
  | [] => ([], none)
  | e :: es =>
    match api.deleteRes e.Name with
    | some err => ([.delete e.Name], some err)
    | none =>
      let r := syncHealthChecksLegacyDeletes api es
      (.delete e.Name :: r.1, r.2)

/-- The create-everything loop of the legacy `syncHealthChecks`, which stamps
the service ID and draft version number onto each desired entry and aborts at
the first failed Create (no zero-value skip in the legacy code). -/
def syncHealthChecksLegacyCreates (api : HealthCheckApi) (sid : String)
    (ver : Nat) : List HealthCheck → List (ReconAction HealthCheck) × Option ApiErr
  | [] => ([], none)
  | d :: ds =>
    let d' := { d with ServiceID := sid, Version := ver }
    match api.createRes d' with
    | some err => ([.create d'], some err)
    | none =>
      let r := syncHealthChecksLegacyCreates api sid ver ds
      (.create d' :: r.1, r.2)

/-- Legacy `syncHealthChecks` (root `sync.go` lines 182-204): the error of the
List call is never checked — on a failed List the Go slice is `nil`, i.e. the
loop sees an empty remote category — then every existing health check is
deleted and every desired one created. -/
def syncHealthChecksLegacy (api : HealthCheckApi) (sid : String) (ver : Nat)
    (desired : List HealthCheck) :
    List (ReconAction HealthCheck) × Option ApiErr :=
  let existing :=
    match api.listRes with
    | .error _ => []
    | .ok l => l
  let dr := syncHealthChecksLegacyDeletes api existing
  match dr.2 with
  | some err => (dr.1, some err)
  | none =>
    let cr := syncHealthChecksLegacyCreates api sid ver desired
    (dr.1 ++ cr.1, cr.2)

/-- An aborted run's call log: every call before the last succeeded, the last
call is the one whose error was returned. -/
def AbortShape (api : HealthCheckApi) (calls : List (ReconAction HealthCheck))
    (err : ApiErr) : Prop :=
  ∃ pre c, calls = pre ++ [c] ∧ api.callRes c = some err
    ∧ ∀ c' ∈ pre, api.callRes c' = none

/-! ## The draft-version manager -/

/-- Mirror of `fastly.Version` (go-fastly `version.go`). -/
structure GoVersion where
  ServiceID : String
  Number : Nat
  Active : Bool
  Comment : String
  Deployed : Bool
  Locked : Bool
  Staging : Bool
  Testing : Bool
  Created : String
  Updated : String
deriving DecidableEq

/-- Mirror of `fastly.Service` (go-fastly `service.go`); `Version` is the
active version number. -/
structure GoService where
  ID : String
  Version : Nat
  Name : String
  Comment : String
  CustomerID : String
deriving DecidableEq

/-- `const versionComment string = "fastly-ctl"` (`cmd/fastlyctl/sync.go`). -/
def versionComment : String := "fastly-ctl"

/-- The version-API calls `prepareNewVersion` can issue. -/
inductive VersionApiCall where
  | listVersions
  | cloneVersion (fromNumber : Nat)
  | updateVersion (number : Nat)
deriving DecidableEq

/-- Oracle for the version-API calls of one `prepareNewVersion` invocation. -/
structure VersionApi where
  listRes : Except ApiErr (List GoVersion)
  cloneRes : Except ApiErr GoVersion
  updateRes : GoVersion → Option ApiErr

/-- The condition of the reuse loop in `prepareNewVersion`
(`v.Number > s.Version && v.Comment == versionComment && !v.Active &&
!v.Locked`). -/
def reusableDraft (s : GoService) (v : GoVersion) : Bool :=
  decide (v.Number > s.Version) && decide (v.Comment = versionComment)
    && !v.Active && !v.Locked

/-- The comment stamping and read-only-field clearing `prepareNewVersion`
performs on a freshly cloned version before the Update call. -/
def stampClone (nv : GoVersion) : GoVersion :=
  { nv with Comment := versionComment, Updated := "", Created := "" }

/-- `prepareNewVersion` (`cmd/fastlyctl/sync.go` lines 104-136).  State is the
`pendingVersions` registry (service ID to draft version).  Returns the
result, the updated registry, and the API calls issued in order. -/
def prepareNewVersion (api : VersionApi)
    (pendingVersions : List (String × GoVersion)) (s : GoService) :
    Except ApiErr GoVersion × List (String × GoVersion) × List VersionApiCall :=
  match pendingVersions.lookup s.ID with
  | some version => (.ok version, pendingVersions, [])
  | none =>
    match api.listRes with
    | .error e => (.error e, pendingVersions, [.listVersions])
    | .ok versions =>
      match versions.find? (reusableDraft s) with
      | some v => (.ok v, (s.ID, v) :: pendingVersions, [.listVersions])
      | none =>
        match api.cloneRes with
        | .error e =>
          (.error e, pendingVersions, [.listVersions, .cloneVersion s.Version])
        | .ok newversion =>
          let nv := stampClone newversion
          match api.updateRes nv with
          | some e =>
            (.error e, pendingVersions,
              [.listVersions, .cloneVersion s.Version, .updateVersion nv.Number])
          | none =>
            (.ok nv, (s.ID, nv) :: pendingVersions,
              [.listVersions, .cloneVersion s.Version, .updateVersion nv.Number])

/-! ## The equivalence checker -/

/-- Mirror of `fastly.Diff` (go-fastly `diff.go`). -/
structure GoDiff where
  ServiceID : String
  Diff : String
  FromVersion : Nat
  ToVersion : Nat
  Format : String
deriving DecidableEq

/-- `util.VersionsEqual` (`util/util.go` lines 169-179).  `diffGet a b` is the
remote diff endpoint for `(serviceID, a, b, "text")`; the returned list is the
`(from, to)` pairs requested, in order. -/
def VersionsEqual (diffGet : Nat → Nat → Except ApiErr GoDiff)
    (vfrom vto : Nat) : Except ApiErr Bool × List (Nat × Nat) :=
  match diffGet vfrom vfrom with
  | .error e => (.error e, [(vfrom, vfrom)])
  | .ok noDiff =>
    match diffGet vfrom vto with
    | .error e => (.error e, [(vfrom, vfrom), (vfrom, vto)])
    | .ok diff =>
      (.ok (decide (noDiff.Diff = diff.Diff)), [(vfrom, vfrom), (vfrom, vto)])

/-! ## The `changesMade` plumbing of `syncService` and the activation phase
of `syncConfig` -/

/-- The fate of the pending draft at the end of `syncService`
(`cmd/fastlyctl/sync.go` lines 1039-1174), given what each reconciler's
`changed` flag returned and whether `util.VersionsEqual` reported the draft
textually equal to the active version (a pending draft exists and the diff
calls succeed).  The Go code binds `changesMade` successively with
`changesMade, err = syncDictionaries(...)`, `changesMade, err =
syncACLs(...)` and `changesMade, err = syncBackends(...)` — each assignment
overwrites the previous value — and finally deletes the pending version when
`equal && !changesMade`.  Returns `true` when the draft stays registered. -/
def syncServiceKeepsPending (dictChanged aclChanged backendChanged : Bool)
    (equal : Bool) : Bool :=
  let changesMade := dictChanged
  let changesMade := aclChanged
  let changesMade := backendChanged
  !(equal && !changesMade)

/-- Driver-level calls of the per-service activation phase of `syncConfig`. -/
inductive DriverCall where
  | validateVersion (n : Nat)
  | activateGate (n : Nat)
deriving DecidableEq

/-- Activation phase of the current CLI's `syncConfig`
(`cmd/fastlyctl/sync.go` lines 1208-1215) for one service, given the pending
draft `syncService` left registered: `util.ValidateVersion` then
`util.ActivateVersion` are invoked unconditionally — the `noop, n` flag the
`push` command declares (`cmd/fastlyctl/main.go` line 58, usage "Push new
config versions, but do not activate.") is never read in this file. -/
def syncConfigActivation (noop : Bool) (pending : Option Nat) :
    List DriverCall :=
  match pending with
  | none => []
  | some n => [.validateVersion n, .activateGate n]

/-- Activation phase of the legacy root `syncConfig` (`sync.go` lines
773, 790-799): `noop := c.Bool("noop")` is honored and the activation gate is
skipped when it is set. -/
def syncConfigActivationLegacy (noop : Bool) (pending : Option Nat) :
    List DriverCall :=
  match pending with
  | none => []
  | some n => .validateVersion n :: (if noop then [] else [.activateGate n])

/-! ## The backend address normalization of `syncBackends` -/

/-- Mirror of `fastly.Backend` (go-fastly `backend.go`). -/
structure Backend where
  ServiceID : String
  Version : Nat
  Name : String
  Port : Nat
  ConnectTimeout : Nat
  MaxConn : Nat
  ErrorThreshold : Nat
  FirstByteTimeout : Nat
  BetweenBytesTimeout : Nat
  AutoLoadbalance : Bool
  Weight : Nat
  RequestCondition : String
  HealthCheck : String
  UseSSL : Bool
  SSLCheckCert : Bool
  SSLCertHostname : String
  SSLSNIHostname : String
  Address : String
  Hostname : String
  IPV4 : String
  IPV6 : String
  SSLHostname : String
  SSLCiphers : String
  MinTLSVersion : String
  MaxTLSVersion : String
  Shield : String
deriving DecidableEq

/-- Go's `strings.Contains(s, substr)`: whether `substr` occurs inside `s`. -/
def goStringContains (s substr : String) : Bool :=
  decide (List.IsInfix substr.data s.data)

/-- `checkMutuallyExclusive` (`cmd/fastlyctl/sync.go` lines 926-944). -/
def checkMutuallyExclusive (a b c d : String) : Bool :=
  let count : Nat :=
    (if a ≠ "" then 1 else 0) + (if b ≠ "" then 1 else 0)
      + (if c ≠ "" then 1 else 0) + (if d ≠ "" then 1 else 0)
  if count > 1 then false else true

/-- The per-backend body of the address-normalization loop of `syncBackends`
(`cmd/fastlyctl/sync.go` lines 961-987).  `parse` models
`net.ParseIP(addr).String()`: the canonical textual rendering of the address
when it parses as an IPv4 or IPv6 address, `none` otherwise.  The Go guard is
`strings.Contains(":", parsed.String())` — the argument order asks whether
the one-character string `":"` contains the rendered address.  Returns `none`
when the mutual-exclusivity check fails (the Go code returns an error). -/
def syncBackendsNormalize (parse : String → Option String) (b : Backend) :
    Option Backend :=
  if !checkMutuallyExclusive b.Address b.Hostname b.IPV4 b.IPV6 then none
  else some (
    if b.Address ≠ "" then
      match parse b.Address with
      | some parsed =>
        if goStringContains ":" parsed then { b with IPV6 := parsed }
        else { b with IPV4 := parsed }
      | none => { b with Hostname := b.Address }
    else if b.Hostname ≠ "" then { b with Address := b.Hostname }
    else if b.IPV4 ≠ "" then { b with Address := b.IPV4 }
    else if b.IPV6 ≠ "" then { b with Address := b.IPV6 }
    else b)

/-! ### Properties of the inner scan -/

section ScanLemmas

variable {α : Type} [DecidableEq α] {nm : α → String}

/-- The inner scan finds no match exactly when no worklist entry shares the
object's name (an exact structural match in particular shares the name). -/
theorem scanWorklist_eq_none_iff {e : α} {w : List α} :
    scanWorklist nm e w = none ↔ ∀ d ∈ w, nm e ≠ nm d := by
  induction w with
  | nil => simp [scanWorklist]
  | cons c rest ih =>
    simp only [scanWorklist, List.forall_mem_cons]
    by_cases hec : e = c
    · subst hec; simp
    · by_cases hnc : nm e = nm c
      · simp [hec, hnc]
      · simp only [if_neg hec, if_neg hnc]
        cases h : scanWorklist nm e rest with
        | none => simpa [hnc] using ih.mp h
        | some p =>
          obtain ⟨a, r⟩ := p
          simp only [Option.some.injEq]
          constructor
          · intro hh; exact absurd hh (by simp)
          · rintro ⟨-, hall⟩
            rw [ih.mpr hall] at h
            simp at h

/-- Shape of a successful scan: some worklist entry `d` sharing the object's
name is consumed, the worklist loses exactly that entry, and the surviving
remote content is `d` both on an exact match (where `e = d`) and on an
Update (which writes `d`'s fields). -/
theorem scanWorklist_some_spec {e : α} {w : List α} {a : Option (ReconAction α)}
    {w' : List α} (h : scanWorklist nm e w = some (a, w')) :
    ∃ d ∈ w, nm d = nm e ∧ w' = w.erase d ∧ survivorOf e a = d := by
  induction w generalizing a w' with
  | nil => simp [scanWorklist] at h
  | cons c rest ih =>
    by_cases hec : e = c
    · rw [scanWorklist, if_pos hec] at h
      obtain ⟨ha, hw⟩ := Prod.mk.injEq .. ▸ Option.some.injEq .. ▸ h
      refine ⟨c, by simp, by rw [← hec], ?_, ?_⟩
      · rw [← hw, List.erase_cons_head]
      · rw [← ha]; simpa [survivorOf] using hec
    · by_cases hnc : nm e = nm c
      · rw [scanWorklist, if_neg hec, if_pos hnc] at h
        obtain ⟨ha, hw⟩ := Prod.mk.injEq .. ▸ Option.some.injEq .. ▸ h
        refine ⟨c, by simp, hnc.symm, ?_, ?_⟩
        · rw [← hw, List.erase_cons_head]
        · rw [← ha]; simp [survivorOf]
      · rw [scanWorklist, if_neg hec, if_neg hnc] at h
        cases hrest : scanWorklist nm e rest with
        | none => rw [hrest] at h; cases h
        | some p =>
          obtain ⟨a0, r0⟩ := p
          rw [hrest] at h
          obtain ⟨ha, hw⟩ := Prod.mk.injEq .. ▸ Option.some.injEq .. ▸ h
          obtain ⟨d, hdmem, hdnm, hr0, hsur⟩ := ih hrest
          have hdc : d ≠ c := fun hdc => hnc (by rw [← hdnm, hdc])
          refine ⟨d, List.mem_cons_of_mem c hdmem, hdnm, ?_, ?_⟩
          · rw [← hw, hr0, List.erase_cons_tail]
            simp [hdc.symm]
          · rw [← ha]; exact hsur

/-- When the worklist has pairwise-distinct names, the scan for an object
whose name occurs in the worklist consumes exactly the (unique) entry with
that name: no API call results when that entry equals the object, an Update
with that entry results otherwise. -/
theorem scanWorklist_of_mem {e d : α} {w : List α} (hw : (w.map nm).Nodup)
    (hd : d ∈ w) (hname : nm d = nm e) :
    scanWorklist nm e w =
      some (if e = d then none else some (.update (nm e) d), w.erase d) := by
  induction w with
  | nil => cases hd
  | cons c rest ih =>
    by_cases hec : e = c
    · have hdc : d = c :=
        List.inj_on_of_nodup_map hw hd (by simp) (by rw [hname, hec])
      subst hdc
      rw [scanWorklist, if_pos hec, List.erase_cons_head, if_pos hec]
    · by_cases hnc : nm e = nm c
      · have hdc : d = c :=
          List.inj_on_of_nodup_map hw hd (by simp) (by rw [hname, hnc])
        subst hdc
        rw [scanWorklist, if_neg hec, if_pos hnc, List.erase_cons_head,
          if_neg hec]
      · have hdc : d ≠ c := fun hdc => hnc (by rw [← hname, hdc])
        have hdrest : d ∈ rest := by
          cases hd with
          | head => exact absurd rfl hdc
          | tail _ hmem => exact hmem
        have hw' : (rest.map nm).Nodup := by
          simpa using (List.nodup_cons.mp (by simpa using hw)).2
        rw [scanWorklist, if_neg hec, if_neg hnc, ih hw' hdrest,
          List.erase_cons_tail]
        simp [hdc.symm]

end ScanLemmas

/-! ### Properties of a full pass over the existing objects -/

section ProcessLemmas

variable {α : Type} [DecidableEq α] {nm : α → String} {zf : α → α}

/-- With pairwise-distinct names, erasing an element removes its name. -/
theorem nm_not_mem_map_erase {w : List α} {d : α} (hw : (w.map nm).Nodup)
    (hd : d ∈ w) : nm d ∉ (w.erase d).map nm := by
  intro hmem
  obtain ⟨x, hx, hnx⟩ := List.mem_map.mp hmem
  have hwnd : w.Nodup := hw.of_map
  have hxw : x ≠ d ∧ x ∈ w := (hwnd.mem_erase_iff).mp hx
  exact hxw.1 (List.inj_on_of_nodup_map hw hxw.2 hd hnx)

/-- Structure of a pass over the existing objects when the desired worklist
has pairwise-distinct names: the remaining worklist is a sublist of the
original; every surviving remote content is a consumed worklist entry whose
name no longer occurs in the remaining worklist and which answers to some
existing object's name; the survivors have pairwise-distinct names; and every
worklist entry either remains or survives as remote content. -/
theorem processExisting_spec (ex : List α) (w : List α)
    (hw : (w.map nm).Nodup) :
    List.Sublist ((processExisting nm zf ex w).2.2) w
  ∧ (∀ s ∈ (processExisting nm zf ex w).2.1,
      s ∈ w ∧ nm s ∉ ((processExisting nm zf ex w).2.2).map nm
        ∧ ∃ e ∈ ex, nm s = nm (zf e))
  ∧ (((processExisting nm zf ex w).2.1).map nm).Nodup
  ∧ (∀ d ∈ w,
      d ∈ (processExisting nm zf ex w).2.2
        ∨ d ∈ (processExisting nm zf ex w).2.1) := by
  induction ex generalizing w with
  | nil =>
    simp only [processExisting]
    exact ⟨List.Sublist.refl w, by simp, by simp, fun d hd => Or.inl hd⟩
  | cons e es ih =>
    cases hscan : scanWorklist nm (zf e) w with
    | none =>
      obtain ⟨h1, h2, h3, h4⟩ := ih w hw
      simp only [processExisting, hscan]
      refine ⟨h1, ?_, h3, h4⟩
      intro s hs
      obtain ⟨hsw, hsnm, e0, he0, hnm0⟩ := h2 s hs
      exact ⟨hsw, hsnm, e0, List.mem_cons_of_mem e he0, hnm0⟩
    | some p =>
      obtain ⟨a, w₁⟩ := p
      obtain ⟨d, hdw, hdnm, hw₁, hsur⟩ := scanWorklist_some_spec hscan
      subst hw₁
      have hsubw : List.Sublist (w.erase d) w := List.erase_sublist d w
      have hw' : ((w.erase d).map nm).Nodup := (hsubw.map nm).nodup hw
      obtain ⟨h1, h2, h3, h4⟩ := ih (w.erase d) hw'
      simp only [processExisting, hscan]
      refine ⟨h1.trans hsubw, ?_, ?_, ?_⟩
      · intro s hs
        rcases List.mem_cons.mp hs with hhead | htail
        · subst hhead
          rw [hsur]
          refine ⟨hdw, ?_, e, List.mem_cons_self e es, hdnm⟩
          intro hmem
          exact nm_not_mem_map_erase hw hdw
            (((h1.map nm).subset) hmem)
        · obtain ⟨hsw, hsnm, e0, he0, hnm0⟩ := h2 s htail
          exact ⟨hsubw.subset hsw, hsnm, e0, List.mem_cons_of_mem e he0, hnm0⟩
      · rw [List.map_cons, List.nodup_cons]
        refine ⟨?_, h3⟩
        rw [hsur]
        intro hmem
        obtain ⟨s, hs, hns⟩ := List.mem_map.mp hmem
        have hsw : s ∈ w.erase d := (h2 s hs).1
        exact nm_not_mem_map_erase hw hdw (hns ▸ List.mem_map_of_mem nm hsw)
      · intro d' hd'
        by_cases hdd : d' = d
        · subst hdd
          exact Or.inr (by rw [hsur]; exact List.mem_cons_self _ _)
        · have hd'e : d' ∈ w.erase d := (List.mem_erase_of_ne hdd).mpr hd'
          rcases h4 d' hd'e with hrem | hsur'
          · exact Or.inl hrem
          · exact Or.inr (List.mem_cons_of_mem _ hsur')

/-- A pass in which every existing object is already (after read-only-field
zeroing) literally present in the worklist, names being distinct on both
sides, issues no mutation at all, keeps every object, and leaves exactly the
unconsumed worklist entries. -/
theorem processExisting_id (ex : List α) (w : List α)
    (hw : (w.map nm).Nodup) (hex : (ex.map nm).Nodup)
    (hsub : ∀ s ∈ ex, s ∈ w) (hzf : ∀ s ∈ ex, zf s = s) :
    (processExisting nm zf ex w).1 = []
  ∧ (processExisting nm zf ex w).2.1 = ex
  ∧ ∀ d ∈ (processExisting nm zf ex w).2.2, d ∈ w ∧ d ∉ ex := by
  induction ex generalizing w with
  | nil =>
    exact ⟨rfl, rfl, fun d hd => ⟨hd, by simp⟩⟩
  | cons e es ih =>
    have hze : zf e = e := hzf e (List.mem_cons_self e es)
    have hew : e ∈ w := hsub e (List.mem_cons_self e es)
    have hscan : scanWorklist nm (zf e) w = some (none, w.erase e) := by
      rw [hze]
      simpa using scanWorklist_of_mem hw hew rfl
    have hnme : nm e ∉ es.map nm := (List.nodup_cons.mp (by simpa using hex)).1
    have hsubes : ∀ s ∈ es, s ∈ w.erase e := by
      intro s hs
      have hse : s ≠ e := by
        intro hse
        exact hnme (hse ▸ List.mem_map_of_mem nm hs)
      exact (List.mem_erase_of_ne hse).mpr (hsub s (List.mem_cons_of_mem e hs))
    have hw' : ((w.erase e).map nm).Nodup :=
      ((List.erase_sublist e w).map nm).nodup hw
    have hex' : (es.map nm).Nodup := (List.nodup_cons.mp (by simpa using hex)).2
    obtain ⟨h1, h2, h3⟩ :=
      ih (w.erase e) hw' hex' hsubes (fun s hs => hzf s (List.mem_cons_of_mem e hs))
    simp only [processExisting, hscan]
    refine ⟨by simpa using h1, ?_, ?_⟩
    · rw [hze]
      simpa [survivorOf] using h2
    · intro d hd
      obtain ⟨hdw, hdnes⟩ := h3 d hd
      have hwnd : w.Nodup := hw.of_map
      have hde : d ≠ e ∧ d ∈ w := (hwnd.mem_erase_iff).mp hdw
      refine ⟨hde.2, ?_⟩
      simp only [List.mem_cons, not_or]
      exact ⟨hde.1, hdnes⟩

/-- Matching is keyed on names: permuting a worklist with pairwise-distinct
names changes neither the mutations issued for the existing objects nor the
surviving remote contents, and permutes the remaining worklist accordingly. -/
theorem processExisting_perm (ex : List α) {w w' : List α}
    (hw : (w.map nm).Nodup) (hp : w.Perm w') :
    (processExisting nm zf ex w').1 = (processExisting nm zf ex w).1
  ∧ (processExisting nm zf ex w').2.1 = (processExisting nm zf ex w).2.1
  ∧ ((processExisting nm zf ex w).2.2).Perm ((processExisting nm zf ex w').2.2) := by
  induction ex generalizing w w' with
  | nil => exact ⟨rfl, rfl, hp⟩
  | cons e es ih =>
    have hw' : (w'.map nm).Nodup := ((hp.map nm).nodup_iff).mp hw
    by_cases hmatch : ∃ d ∈ w, nm d = nm (zf e)
    · obtain ⟨d, hdw, hdnm⟩ := hmatch
      have hs1 := scanWorklist_of_mem hw hdw hdnm
      have hs2 := scanWorklist_of_mem hw' (hp.mem_iff.mp hdw) hdnm
      have hperm' : (w.erase d).Perm (w'.erase d) := hp.erase d
      have hwe : ((w.erase d).map nm).Nodup :=
        ((List.erase_sublist d w).map nm).nodup hw
      obtain ⟨g1, g2, g3⟩ := ih hwe hperm'
      simp only [processExisting, hs1, hs2]
      exact ⟨by rw [g1], by rw [g2], g3⟩
    · have hnone : scanWorklist nm (zf e) w = none :=
        scanWorklist_eq_none_iff.mpr
          (fun d hd hnm => hmatch ⟨d, hd, hnm.symm⟩)
      have hnone' : scanWorklist nm (zf e) w' = none :=
        scanWorklist_eq_none_iff.mpr
          (fun d hd hnm => hmatch ⟨d, hp.mem_iff.mpr hd, hnm.symm⟩)
      obtain ⟨g1, g2, g3⟩ := ih hw hp
      simp only [processExisting, hnone, hnone']
      exact ⟨by rw [g1], by rw [g2], g3⟩

/-- Generic idempotence of the reconciler loop: when the desired worklist has
pairwise-distinct names and its entries carry no read-only server fields, a
second run against the remote contents produced by a first run issues no
mutation at all. -/
theorem reconcileCategory_idempotent (z : α) (ex w : List α)
    (hw : (w.map nm).Nodup) (hzf : ∀ d ∈ w, zf d = d) :
    (reconcileCategory nm zf z ((reconcileCategory nm zf z ex w).2) w).1 = [] := by
  obtain ⟨h1, h2, h3, h4⟩ := @processExisting_spec _ _ nm zf ex w hw
  set p := processExisting nm zf ex w with hp
  set remote₂ := p.2.1 ++ p.2.2.filter (fun d => d ≠ z) with hremote
  have hmem : ∀ s ∈ remote₂, s ∈ w := by
    intro s hs
    rcases List.mem_append.mp hs with hsur | hflt
    · exact (h2 s hsur).1
    · exact h1.subset (List.mem_of_mem_filter hflt)
  have hnd₂ : (remote₂.map nm).Nodup := by
    rw [hremote, List.map_append, List.nodup_append]
    refine ⟨h3, ((List.filter_sublist p.2.2).map nm).nodup ((h1.map nm).nodup hw), ?_⟩
    intro x hx₁ hx₂
    obtain ⟨s, hs, hns⟩ := List.mem_map.mp hx₁
    obtain ⟨t, ht, hnt⟩ := List.mem_map.mp hx₂
    have htp : t ∈ p.2.2 := List.mem_of_mem_filter ht
    exact (h2 s hs).2.1 (by rw [hns, ← hnt]; exact List.mem_map_of_mem nm htp)
  have hzf₂ : ∀ s ∈ remote₂, zf s = s := fun s hs => hzf s (hmem s hs)
  obtain ⟨g1, g2, g3⟩ := processExisting_id remote₂ w hw hnd₂ hmem hzf₂
  have hfilter :
      (processExisting nm zf remote₂ w).2.2.filter (fun d => d ≠ z) = [] := by
    rw [List.filter_eq_nil_iff]
    intro d hd
    obtain ⟨hdw, hdnr⟩ := g3 d hd
    simp only [ne_eq, decide_not, Bool.not_eq_true', decide_eq_false_iff_not,
      not_not]
    by_contra hdz
    rcases h4 d hdw with hrem | hsur
    · exact hdnr (List.mem_append.mpr (Or.inr
        (List.mem_filter.mpr ⟨hrem, by simpa using hdz⟩)))
    · exact hdnr (List.mem_append.mpr (Or.inl hsur))
  show (processExisting nm zf remote₂ w).1
      ++ createMissing z (processExisting nm zf remote₂ w).2.2 = []
  rw [g1, createMissing, hfilter]
  rfl

end ProcessLemmas

/-! ## Claim theorems -/

/-- C1: the claim states that when `syncDictionaries` reports `changed=true`,
the pending draft stays registered at the end of `syncService` regardless of
the flags the later-run `syncACLs` and `syncBackends` return.  The code binds
`changesMade` anew at each of the three calls, so the dictionary reconciler's
`true` is overwritten: with `dictChanged = true`, `aclChanged = false`,
`backendChanged = false` and a textually-equal draft, the pending version is
deleted — contradicting the code's own comment that the flag must force an
activation prompt and that dictionary creation does not affect the diff. -/
theorem syncService_dictionary_changes_lost :
    syncServiceKeepsPending true false false true = false := rfl

/-- C9: the claim states that `push --noop` never reaches the activation
gate.  The legacy root `syncConfig` honors the flag, but the current CLI's
`syncConfig` never reads it: with `noop = true` and a pending draft version 2
the current driver still invokes `util.ActivateVersion` (which calls the
Activate endpoint upon confirmation or with `--assume-yes`), while the legacy
driver stops after validation. -/
theorem syncConfig_noop_does_not_skip_activation :
    syncConfigActivation true (some 2)
        = [.validateVersion 2, .activateGate 2]
      ∧ syncConfigActivationLegacy true (some 2) = [.validateVersion 2] :=
  ⟨rfl, rfl⟩

/-- C4: `VersionsEqual` requests exactly the two diffs `(from, from)` and
`(from, to)` in that order — never diffing the draft against itself — and
returns `true` precisely when the two diff texts are byte-identical. -/
theorem versionsEqual_exactly_two_diffs
    (diffGet : Nat → Nat → Except ApiErr GoDiff) (vfrom vto : Nat)
    (d1 d2 : GoDiff) (h1 : diffGet vfrom vfrom = .ok d1)
    (h2 : diffGet vfrom vto = .ok d2) :
    (VersionsEqual diffGet vfrom vto).2 = [(vfrom, vfrom), (vfrom, vto)]
      ∧ ((VersionsEqual diffGet vfrom vto).1 = .ok true ↔ d1.Diff = d2.Diff) := by
  simp [VersionsEqual, h1, h2]

/-- C4 witness: a concrete diff oracle on which both calls succeed. -/
theorem versionsEqual_exactly_two_diffs_witness :
    (VersionsEqual (fun _ _ => .ok ⟨"s", "difftext", 0, 0, "text"⟩) 1 2).2
        = [(1, 1), (1, 2)]
      ∧ ((VersionsEqual (fun _ _ => .ok ⟨"s", "difftext", 0, 0, "text"⟩) 1 2).1
            = .ok true
          ↔ ("difftext" : String) = "difftext") :=
  versionsEqual_exactly_two_diffs _ 1 2 _ _ rfl rfl

/-- C3: `prepareNewVersion` is memoized per service: with an entry already in
`pendingVersions` it returns that very version and issues no API call.
Otherwise it lists the versions and reuses the first with number above the
service's active version, comment `"fastly-ctl"`, neither active nor locked;
only when no such version exists does it clone from the active version, stamp
and clear the clone, and register it. -/
theorem prepareNewVersion_memoized_and_reuses_draft (api : VersionApi)
    (pending : List (String × GoVersion)) (s : GoService) :
    (∀ v, pending.lookup s.ID = some v →
        prepareNewVersion api pending s = (.ok v, pending, []))
  ∧ (∀ versions v, pending.lookup s.ID = none → api.listRes = .ok versions →
        versions.find? (reusableDraft s) = some v →
        prepareNewVersion api pending s
          = (.ok v, (s.ID, v) :: pending, [.listVersions]))
  ∧ (∀ versions nv, pending.lookup s.ID = none → api.listRes = .ok versions →
        versions.find? (reusableDraft s) = none → api.cloneRes = .ok nv →
        api.updateRes (stampClone nv) = none →
        prepareNewVersion api pending s
          = (.ok (stampClone nv), (s.ID, stampClone nv) :: pending,
              [.listVersions, .cloneVersion s.Version,
                .updateVersion (stampClone nv).Number])) := by
  refine ⟨?_, ?_, ?_⟩
  · intro v hv
    simp [prepareNewVersion, hv]
  · intro versions v hpend hlist hfind
    simp [prepareNewVersion, hpend, hlist, hfind]
  · intro versions nv hpend hlist hfind hclone hupd
    simp [prepareNewVersion, hpend, hlist, hfind, hclone, hupd]

/-- C3 witness: a registry that already holds a draft for the service; the
second call returns it with an empty call list. -/
theorem prepareNewVersion_memoized_and_reuses_draft_witness :
    prepareNewVersion ⟨.ok [], .error "no clone", fun _ => none⟩
        [("sid", ⟨"sid", 5, false, "fastly-ctl", false, false, false, false,
          "", ""⟩)]
        ⟨"sid", 4, "svc", "", ""⟩
      = (.ok ⟨"sid", 5, false, "fastly-ctl", false, false, false, false,
          "", ""⟩,
         [("sid", ⟨"sid", 5, false, "fastly-ctl", false, false, false, false,
          "", ""⟩)], []) :=
  (prepareNewVersion_memoized_and_reuses_draft _ _ _).1 _ rfl

/-- The guard `strings.Contains(":", parsed.String())` is false for every
rendered address text other than `""` and `":"`. -/
theorem goStringContains_colon {t : String} (h1 : t ≠ "") (h2 : t ≠ ":") :
    goStringContains ":" t = false := by
  rw [goStringContains, decide_eq_false_iff_not]
  intro hinf
  rcases List.sublist_singleton.mp hinf.sublist with h | h
  · exact h1 (by apply String.ext; rw [h])
  · exact h2 (by apply String.ext; rw [h])

/-- C10: in the address-normalization step of `syncBackends`, every desired
backend whose non-empty `Address` parses as an IP — IPv4 or IPv6 — gets the
rendered address assigned to its `IPV4` field (the `IPV6` field keeps its
previous value, since the swapped-argument guard `strings.Contains(":",
parsed.String())` is false for every rendered IP text), and a non-empty
`Address` that does not parse is copied to `Hostname`. -/
theorem syncBackends_parsed_address_goes_to_ipv4
    (parse : String → Option String)
    (hp : ∀ a t, parse a = some t → t ≠ "" ∧ t ≠ ":") (b : Backend)
    (hchk : checkMutuallyExclusive b.Address b.Hostname b.IPV4 b.IPV6 = true) :
    (∀ t, parse b.Address = some t → b.Address ≠ "" →
        syncBackendsNormalize parse b = some { b with IPV4 := t })
  ∧ (parse b.Address = none → b.Address ≠ "" →
        syncBackendsNormalize parse b = some { b with Hostname := b.Address }) := by
  constructor
  · intro t ht haddr
    obtain ⟨ht1, ht2⟩ := hp _ _ ht
    simp [syncBackendsNormalize, hchk, haddr, ht,
      goStringContains_colon ht1 ht2]
  · intro ht haddr
    simp [syncBackendsNormalize, hchk, haddr, ht]

/-- C10 witness: a parse oracle recognizing one IPv4 address; the rendered
text lands in `IPV4` and `IPV6` stays empty. -/
theorem syncBackends_parsed_address_goes_to_ipv4_witness :
    syncBackendsNormalize
        (fun a => if a = "1.2.3.4" then some "1.2.3.4" else none)
        ⟨"", 0, "b1", 0, 0, 0, 0, 0, 0, false, 0, "", "", false, false, "",
          "", "1.2.3.4", "", "", "", "", "", "", "", ""⟩
      = some ⟨"", 0, "b1", 0, 0, 0, 0, 0, 0, false, 0, "", "", false, false,
          "", "", "1.2.3.4", "", "1.2.3.4", "", "", "", "", "", ""⟩ := by
  have h := (syncBackends_parsed_address_goes_to_ipv4
      (fun a => if a = "1.2.3.4" then some "1.2.3.4" else none)
      (fun a t ht => by
        by_cases ha : a = "1.2.3.4"
        · subst ha
          simp only [if_pos rfl] at ht
          injection ht with ht
          subst ht
          exact ⟨by decide, by decide⟩
        · simp [ha] at ht)
      ⟨"", 0, "b1", 0, 0, 0, 0, 0, 0, false, 0, "", "", false, false, "",
        "", "1.2.3.4", "", "", "", "", "", "", "", ""⟩
      (by decide)).1 "1.2.3.4" (by decide) (by decide)
  exact h

/-- C2: per existing remote object of the cache-settings category (its
read-only fields zeroed), processing issues exactly one of three outcomes —
no API call when a worklist entry structurally equals it (that entry leaves
the worklist), exactly one Update with the entry's fields when an entry
shares its name but differs (that entry leaves the worklist), or exactly one
Delete when no entry shares its name — the worklist having pairwise-distinct
names (the spec's §3 invariant).  Moreover, in the spec's Scenario A,
desired `{Name:"a", TTL:60}` against a draft `{Name:"a", TTL:30}` issues one
Update for "a" with TTL 60 and no Create or Delete. -/
theorem syncCacheSettings_per_object_trichotomy (e : CacheSetting)
    (es w : List CacheSetting) (hw : (w.map CacheSetting.Name).Nodup) :
    (∀ d ∈ w, d = e.zeroReadOnly →
      processExisting CacheSetting.Name CacheSetting.zeroReadOnly (e :: es) w
        = ((processExisting CacheSetting.Name CacheSetting.zeroReadOnly es
              (w.erase d)).1,
           e.zeroReadOnly
             :: (processExisting CacheSetting.Name CacheSetting.zeroReadOnly es
              (w.erase d)).2.1,
           (processExisting CacheSetting.Name CacheSetting.zeroReadOnly es
              (w.erase d)).2.2))
  ∧ (∀ d ∈ w, d.Name = e.zeroReadOnly.Name → d ≠ e.zeroReadOnly →
      processExisting CacheSetting.Name CacheSetting.zeroReadOnly (e :: es) w
        = (.update e.zeroReadOnly.Name d
             :: (processExisting CacheSetting.Name CacheSetting.zeroReadOnly es
              (w.erase d)).1,
           d :: (processExisting CacheSetting.Name CacheSetting.zeroReadOnly es
              (w.erase d)).2.1,
           (processExisting CacheSetting.Name CacheSetting.zeroReadOnly es
              (w.erase d)).2.2))
  ∧ ((∀ d ∈ w, d.Name ≠ e.zeroReadOnly.Name) →
      processExisting CacheSetting.Name CacheSetting.zeroReadOnly (e :: es) w
        = (.delete e.zeroReadOnly.Name
             :: (processExisting CacheSetting.Name CacheSetting.zeroReadOnly es
              w).1,
           (processExisting CacheSetting.Name CacheSetting.zeroReadOnly es
              w).2.1,
           (processExisting CacheSetting.Name CacheSetting.zeroReadOnly es
              w).2.2))
  ∧ syncCacheSettings [⟨"srv", 7, "a", "", "", 0, 30⟩]
        [⟨"", 0, "a", "", "", 0, 60⟩]
      = ([.update "a" ⟨"", 0, "a", "", "", 0, 60⟩],
         [⟨"", 0, "a", "", "", 0, 60⟩]) := by
  refine ⟨?_, ?_, ?_, by decide⟩
  · intro d hd hde
    have hscan := scanWorklist_of_mem hw hd (by rw [hde])
    rw [if_pos hde.symm] at hscan
    simp [processExisting, hscan, survivorOf, hde]
  · intro d hd hnm hne
    have hscan := scanWorklist_of_mem hw hd hnm
    rw [if_neg (fun hh => hne hh.symm)] at hscan
    simp [processExisting, hscan, survivorOf]
  · intro hnone
    have hscan : scanWorklist CacheSetting.Name e.zeroReadOnly w = none :=
      scanWorklist_eq_none_iff.mpr (fun d hd => fun hh => hnone d hd hh.symm)
    simp [processExisting, hscan]

/-- C2 witness: Scenario A's inputs run through the mismatched-name branch of
the trichotomy. -/
theorem syncCacheSettings_per_object_trichotomy_witness :
    processExisting CacheSetting.Name CacheSetting.zeroReadOnly
        [⟨"srv", 7, "a", "", "", 0, 30⟩] [⟨"", 0, "a", "", "", 0, 60⟩]
      = ([.update "a" ⟨"", 0, "a", "", "", 0, 60⟩],
         [⟨"", 0, "a", "", "", 0, 60⟩], []) := by
  have h := (syncCacheSettings_per_object_trichotomy
      ⟨"srv", 7, "a", "", "", 0, 30⟩ [] [⟨"", 0, "a", "", "", 0, 60⟩]
      (by decide)).2.1 ⟨"", 0, "a", "", "", 0, 60⟩
      (by decide) (by decide) (by decide)
  exact h.trans (by decide)

/-- C6: for a desired header list with pairwise-distinct names, after a
successful `syncHeaders` run the set of names present in the remote draft
category equals the set of names of the (non-placeholder) desired entries:
every such desired name exists remotely and no remote object with a name
outside the desired set survives.  Remote objects are assumed to carry
non-empty names, as Fastly requires. -/
theorem syncHeaders_name_set_equals_desired (existing desired : List Header)
    (hnd : (desired.map Header.Name).Nodup)
    (hex : ∀ e ∈ existing, e.Name ≠ "") :
    ∀ n, (∃ o ∈ (syncHeaders existing desired).2, o.Name = n)
      ↔ (∃ d ∈ desired, d ≠ Header.zero ∧ d.Name = n) := by
  obtain ⟨h1, h2, h3, h4⟩ := @processExisting_spec _ _
    Header.Name Header.zeroReadOnly existing desired hnd
  have hres : (syncHeaders existing desired).2
      = (processExisting Header.Name Header.zeroReadOnly existing desired).2.1
        ++ (processExisting Header.Name Header.zeroReadOnly existing
            desired).2.2.filter (fun d => d ≠ Header.zero) := rfl
  intro n
  rw [hres]
  constructor
  · rintro ⟨o, ho, rfl⟩
    rcases List.mem_append.mp ho with hsur | hflt
    · obtain ⟨how, -, e0, he0, hnm0⟩ := h2 o hsur
      refine ⟨o, how, ?_, rfl⟩
      have hne : o.Name ≠ "" := by
        rw [hnm0]
        simpa [Header.zeroReadOnly] using hex e0 he0
      intro hzero
      rw [hzero] at hne
      exact hne rfl
    · have hod := List.mem_filter.mp hflt
      refine ⟨o, h1.subset hod.1, by simpa using hod.2, rfl⟩
  · rintro ⟨d, hd, hdz, rfl⟩
    rcases h4 d hd with hrem | hsur
    · exact ⟨d, List.mem_append.mpr (Or.inr
        (List.mem_filter.mpr ⟨hrem, by simpa using hdz⟩)), rfl⟩
    · exact ⟨d, List.mem_append.mpr (Or.inl hsur), rfl⟩

/-- C6 witness: one desired header replacing a differently-named remote one;
the remote name set afterwards is exactly the desired name set. -/
theorem syncHeaders_name_set_equals_desired_witness :
    (∃ o ∈ (syncHeaders
        [⟨"srv", 3, "old", "set", "", false, 0, "", "", "", "", "", "", ""⟩]
        [⟨"", 0, "new", "set", "", false, 0, "", "", "", "", "", "", ""⟩]).2,
          o.Name = "new")
      ↔ (∃ d ∈ [(⟨"", 0, "new", "set", "", false, 0, "", "", "", "", "", "",
            ""⟩ : Header)], d ≠ Header.zero ∧ d.Name = "new") :=
  syncHeaders_name_set_equals_desired _ _ (by decide)
    (by intro e he; simp at he; rw [he]; decide) "new"

/-- C7: `syncConditions` is order-independent — for a desired list with
pairwise-distinct names, permuting the desired list and reconciling the same
initial draft yields a permutation of the same final remote objects (the
same names with the same contents), because matching is keyed on `Name`
rather than list position. -/
theorem syncConditions_order_independent
    (existing desired desired' : List Condition)
    (hperm : desired.Perm desired')
    (hnd : (desired.map Condition.Name).Nodup) :
    ((syncConditions existing desired).2).Perm
      ((syncConditions existing desired').2) := by
  obtain ⟨g1, g2, g3⟩ := @processExisting_perm _ _
    Condition.Name Condition.zeroReadOnly existing _ _ hnd hperm
  have hres : (syncConditions existing desired).2
      = (processExisting Condition.Name Condition.zeroReadOnly existing
          desired).2.1
        ++ (processExisting Condition.Name Condition.zeroReadOnly existing
          desired).2.2.filter (fun d => d ≠ Condition.zero) := rfl
  have hres' : (syncConditions existing desired').2
      = (processExisting Condition.Name Condition.zeroReadOnly existing
          desired').2.1
        ++ (processExisting Condition.Name Condition.zeroReadOnly existing
          desired').2.2.filter (fun d => d ≠ Condition.zero) := rfl
  rw [hres, hres', ← g2]
  exact List.Perm.append_left _ (g3.filter _)

/-- C7 witness: swapping two desired conditions leaves the reconciled remote
set a permutation of the original result. -/
theorem syncConditions_order_independent_witness :
    ((syncConditions [] [⟨"", 0, "c1", "req.url ~ \"/a\"", "REQUEST", "", 10⟩,
        ⟨"", 0, "c2", "req.url ~ \"/b\"", "REQUEST", "", 20⟩]).2).Perm
      ((syncConditions [] [⟨"", 0, "c2", "req.url ~ \"/b\"", "REQUEST", "", 20⟩,
        ⟨"", 0, "c1", "req.url ~ \"/a\"", "REQUEST", "", 10⟩]).2) :=
  syncConditions_order_independent _ _ _ (by decide) (by decide)

/-- C5 counterexample: the claim quantifies over any desired list.  Take the
desired domain list `[zero placeholder, {Name:"", Comment:"c"}]` (two entries
sharing the empty name) against an empty draft.  The first run only creates
`{Name:"", Comment:"c"}` (the placeholder is skipped).  On the second run that
object matches the placeholder by name before its exact entry is reached, so
an Update is issued: the second run is not mutation-free. -/
theorem syncDomains_second_run_mutates :
    (syncDomains "svc"
        ((syncDomains "svc" [] [⟨"", 0, "", ""⟩, ⟨"", 0, "", "c"⟩]).2)
        [⟨"", 0, "", ""⟩, ⟨"", 0, "", "c"⟩]).1 ≠ [] := by decide

/-- C5 (amended): for any desired domain list whose entries have
pairwise-distinct names after the `_servicename_` substitution — the spec's
§3 invariant — and which carry no server-assigned fields, running
`syncDomains` once and then again with the same desired list against the
resulting draft issues zero Create, Update, and Delete calls on the second
run. -/
theorem syncDomains_idempotent_for_nodup_names (svcName : String)
    (existing desired : List Domain)
    (hnd : ((desired.map (Domain.subst svcName)).map Domain.Name).Nodup)
    (hzf : ∀ d ∈ desired, d.ServiceID = "" ∧ d.Version = 0) :
    (syncDomains svcName ((syncDomains svcName existing desired).2)
        desired).1 = [] := by
  have hzf' : ∀ d ∈ desired.map (Domain.subst svcName),
      Domain.zeroReadOnly d = d := by
    intro d hd
    obtain ⟨d0, hd0, rfl⟩ := List.mem_map.mp hd
    obtain ⟨hs, hv⟩ := hzf d0 hd0
    obtain ⟨sid, ver, dn, dc⟩ := d0
    simp only at hs hv
    simp [Domain.subst, Domain.zeroReadOnly, hs, hv]
  exact reconcileCategory_idempotent Domain.zero existing
    (desired.map (Domain.subst svcName)) hnd hzf'

/-- C5 witness: a two-domain desired list with distinct names; the second run
issues nothing. -/
theorem syncDomains_idempotent_for_nodup_names_witness :
    (syncDomains "svc"
        ((syncDomains "svc" [⟨"srv", 3, "stale.example.com", ""⟩]
            [⟨"", 0, "_servicename_.example.com", ""⟩,
             ⟨"", 0, "www.example.com", "w"⟩]).2)
        [⟨"", 0, "_servicename_.example.com", ""⟩,
         ⟨"", 0, "www.example.com", "w"⟩]).1 = [] :=
  syncDomains_idempotent_for_nodup_names "svc" _ _ (by decide) (by decide)

/-! ### Error-flow lemmas for `syncHealthChecks` -/

theorem syncHealthChecksCreate_ok (api : HealthCheckApi)
    (ds : List HealthCheck)
    (h : (syncHealthChecksCreate api ds).2 = none) :
    ∀ c ∈ (syncHealthChecksCreate api ds).1, api.callRes c = none := by
  induction ds with
  | nil => simp [syncHealthChecksCreate]
  | cons d ds ih =>
    by_cases hz : d = HealthCheck.zero
    · simp only [syncHealthChecksCreate, if_pos hz] at h ⊢
      exact ih h
    · cases hc : api.createRes d with
      | some err =>
        simp only [syncHealthChecksCreate, if_neg hz, hc] at h
        exact Option.noConfusion h
      | none =>
        simp only [syncHealthChecksCreate, if_neg hz, hc] at h ⊢
        intro c hmem
        rcases List.mem_cons.mp hmem with rfl | hmem'
        · simpa [HealthCheckApi.callRes] using hc
        · exact ih h c hmem'

theorem syncHealthChecksCreate_err (api : HealthCheckApi)
    (ds : List HealthCheck) (err : ApiErr)
    (h : (syncHealthChecksCreate api ds).2 = some err) :
    AbortShape api (syncHealthChecksCreate api ds).1 err := by
  induction ds with
  | nil => simp [syncHealthChecksCreate] at h
  | cons d ds ih =>
    by_cases hz : d = HealthCheck.zero
    · simp only [syncHealthChecksCreate, if_pos hz] at h ⊢
      exact ih h
    · cases hc : api.createRes d with
      | some e =>
        simp only [syncHealthChecksCreate, if_neg hz, hc] at h ⊢
        injection h with h
        exact ⟨[], .create d, by simp,
          by simpa [HealthCheckApi.callRes, h] using hc, by simp⟩
      | none =>
        simp only [syncHealthChecksCreate, if_neg hz, hc] at h ⊢
        obtain ⟨pre, c0, hsplit, hc0, hpre⟩ := ih h
        refine ⟨.create d :: pre, c0, by simp [hsplit], hc0, ?_⟩
        intro c' hmem
        rcases List.mem_cons.mp hmem with rfl | hmem'
        · simpa [HealthCheckApi.callRes] using hc
        · exact hpre c' hmem'

theorem syncHealthChecksExisting_ok (api : HealthCheckApi)
    (ex : List HealthCheck) :
    ∀ work, (syncHealthChecksExisting api ex work).2.2 = none →
      ∀ c ∈ (syncHealthChecksExisting api ex work).1, api.callRes c = none := by
  induction ex with
  | nil => intro work h; simp [syncHealthChecksExisting]
  | cons e es ih =>
    intro work h
    cases hf : findMatch HealthCheck.Name e.zeroReadOnly work with
    | none =>
      cases hd : api.deleteRes e.zeroReadOnly.Name with
      | some err =>
        simp only [syncHealthChecksExisting, hf, hd] at h
        exact Option.noConfusion h
      | none =>
        simp only [syncHealthChecksExisting, hf, hd] at h ⊢
        intro c hmem
        rcases List.mem_cons.mp hmem with rfl | hmem'
        · simpa [HealthCheckApi.callRes] using hd
        · exact ih work h c hmem'
    | some p =>
      obtain ⟨d, isExact, work'⟩ := p
      cases isExact with
      | true =>
        simp only [syncHealthChecksExisting, hf] at h ⊢
        exact ih work' h
      | false =>
        cases hu : api.updateRes e.zeroReadOnly.Name d with
        | some err =>
          simp only [syncHealthChecksExisting, hf, hu] at h
          exact Option.noConfusion h
        | none =>
          simp only [syncHealthChecksExisting, hf, hu] at h ⊢
          intro c hmem
          rcases List.mem_cons.mp hmem with rfl | hmem'
          · simpa [HealthCheckApi.callRes] using hu
          · exact ih work' h c hmem'

theorem syncHealthChecksExisting_err (api : HealthCheckApi)
    (ex : List HealthCheck) :
    ∀ work err, (syncHealthChecksExisting api ex work).2.2 = some err →
      AbortShape api (syncHealthChecksExisting api ex work).1 err := by
  induction ex with
  | nil => intro work err h; simp [syncHealthChecksExisting] at h
  | cons e es ih =>
    intro work err h
    cases hf : findMatch HealthCheck.Name e.zeroReadOnly work with
    | none =>
      cases hd : api.deleteRes e.zeroReadOnly.Name with
      | some e0 =>
        simp only [syncHealthChecksExisting, hf, hd] at h ⊢
        injection h with h
        exact ⟨[], .delete e.zeroReadOnly.Name, by simp,
          by simpa [HealthCheckApi.callRes, h] using hd, by simp⟩
      | none =>
        simp only [syncHealthChecksExisting, hf, hd] at h ⊢
        obtain ⟨pre, c0, hsplit, hc0, hpre⟩ := ih work err h
        refine ⟨.delete e.zeroReadOnly.Name :: pre, c0, by simp [hsplit],
          hc0, ?_⟩
        intro c' hmem
        rcases List.mem_cons.mp hmem with rfl | hmem'
        · simpa [HealthCheckApi.callRes] using hd
        · exact hpre c' hmem'
    | some p =>
      obtain ⟨d, isExact, work'⟩ := p
      cases isExact with
      | true =>
        simp only [syncHealthChecksExisting, hf] at h ⊢
        exact ih work' err h
      | false =>
        cases hu : api.updateRes e.zeroReadOnly.Name d with
        | some e0 =>
          simp only [syncHealthChecksExisting, hf, hu] at h ⊢
          injection h with h
          exact ⟨[], .update e.zeroReadOnly.Name d, by simp,
            by simpa [HealthCheckApi.callRes, h] using hu, by simp⟩
        | none =>
          simp only [syncHealthChecksExisting, hf, hu] at h ⊢
          obtain ⟨pre, c0, hsplit, hc0, hpre⟩ := ih work' err h
          refine ⟨.update e.zeroReadOnly.Name d :: pre, c0, by simp [hsplit],
            hc0, ?_⟩
          intro c' hmem
          rcases List.mem_cons.mp hmem with rfl | hmem'
          · simpa [HealthCheckApi.callRes] using hu
          · exact hpre c' hmem'

/-- C8 counterexample: the claim covers "every category reconciler" and
names the legacy root `syncHealthChecks` among its sources; there the List
error is never checked.  With a failing List call, one desired health check
and otherwise-succeeding calls, the legacy reconciler returns no error and
issues a Create — it proceeds as though the remote category were empty
instead of aborting with the List error. -/
theorem syncHealthChecksLegacy_proceeds_after_list_error :
    (syncHealthChecksLegacy
        ⟨.error "boom", fun _ _ => none, fun _ => none, fun _ => none⟩
        "sid" 2 [⟨"", 0, "hc1", 0, 0, 0, 0, 0, "", 0, "", "", "", ""⟩]).2
        = none
  ∧ (syncHealthChecksLegacy
        ⟨.error "boom", fun _ _ => none, fun _ => none, fun _ => none⟩
        "sid" 2 [⟨"", 0, "hc1", 0, 0, 0, 0, 0, "", 0, "", "", "", ""⟩]).1
        = [.create ⟨"sid", 2, "hc1", 0, 0, 0, 0, 0, "", 0, "", "", "", ""⟩] :=
  ⟨rfl, rfl⟩

/-- C8 (amended): in the current CLI's `syncHealthChecks`, a List error
aborts the run immediately with that very error and no mutation call; and
whenever the run returns an error, either it is the List error and no call
was issued, or the call log ends exactly at the failing mutation call —
every earlier call succeeded, the failing call's error is propagated
unchanged, and no call follows it.  (The legacy root `syncHealthChecks`,
by contrast, ignores the List error, as the counterexample shows.) -/
theorem syncHealthChecks_errors_abort_and_propagate (api : HealthCheckApi)
    (desired : List HealthCheck) :
    (∀ e, api.listRes = .error e →
        syncHealthChecks api desired = ([], some e))
  ∧ (∀ err, (syncHealthChecks api desired).2 = some err →
      ((syncHealthChecks api desired).1 = [] ∧ api.listRes = .error err)
        ∨ AbortShape api (syncHealthChecks api desired).1 err) := by
  constructor
  · intro e he
    simp [syncHealthChecks, he]
  · intro err herr
    cases hl : api.listRes with
    | error e =>
      left
      simp only [syncHealthChecks, hl] at herr ⊢
      injection herr with herr
      exact ⟨trivial, by rw [herr]⟩
    | ok existing =>
      right
      simp only [syncHealthChecks, hl] at herr ⊢
      cases hr : (syncHealthChecksExisting api existing
          (desired.map (fun h =>
            if h.HTTPVersion = "" then { h with HTTPVersion := "1.1" }
            else h))).2.2 with
      | some e0 =>
        simp only [hr] at herr ⊢
        injection herr with herr
        subst herr
        exact syncHealthChecksExisting_err api existing _ e0 hr
      | none =>
        simp only [hr] at herr ⊢
        obtain ⟨pre, c0, hsplit, hc0, hpre⟩ :=
          syncHealthChecksCreate_err api _ err herr
        refine ⟨(syncHealthChecksExisting api existing
            (desired.map (fun h =>
              if h.HTTPVersion = "" then { h with HTTPVersion := "1.1" }
              else h))).1 ++ pre, c0, ?_, hc0, ?_⟩
        · rw [hsplit, List.append_assoc]
        · intro c' hmem
          rcases List.mem_append.mp hmem with hmem' | hmem'
          · exact syncHealthChecksExisting_ok api existing _ hr c' hmem'
          · exact hpre c' hmem'

/-- C8 witness: a run whose List call fails aborts at once with that error
and an empty call log. -/
theorem syncHealthChecks_errors_abort_and_propagate_witness :
    syncHealthChecks
        ⟨.error "boom", fun _ _ => none, fun _ => none, fun _ => none⟩ []
      = ([], some "boom") :=
  (syncHealthChecks_errors_abort_and_propagate _ _).1 "boom" rfl

end Fastlyctl
